import Mathlib

/-!
# Verification of the codewalk address-resolution engine

A shallow embedding of the Plan-9/sam-style address evaluator from the
codewalk package (`addrToByteRange`, `addrNumber`, `addrRegexp`,
`lineToByte`, `byteToLine`), together with proofs and refutations of the
specified properties.

Buffers and address strings are byte lists (`List Nat`, each element a
byte value).  Go's fallible returns `(lo, hi, err)` become the
`EvalResult.ret lo hi err` constructor; a Go runtime abort from an
out-of-bounds index is modelled explicitly by `EvalResult.fault`.
Loops of the source are translated into structural recursions (over a
counter that the loop itself decrements, or over an exact fuel equal to
the number of remaining iterations), so that every definition evaluates
by `decide`.
-/

namespace Codewalk

/-- UTF-8 encoding of one character, used to build concrete byte buffers. -/
def utf8Bytes (c : Char) : List Nat :=
  let n := c.toNat
  if n < 0x80 then [n]
  else if n < 0x800 then [0xC0 + n / 0x40, 0x80 + n % 0x40]
  else if n < 0x10000 then
    [0xE0 + n / 0x1000, 0x80 + (n / 0x40) % 0x40, 0x80 + n % 0x40]
  else
    [0xF0 + n / 0x40000, 0x80 + (n / 0x1000) % 0x40,
     0x80 + (n / 0x40) % 0x40, 0x80 + n % 0x40]

/-- Byte-list contents of a string (UTF-8), used for concrete test inputs. -/
def strBytes (s : String) : List Nat :=
  s.data.foldr (fun c acc => utf8Bytes c ++ acc) []

/-- A UTF-8 continuation byte (`0x80 ≤ b ≤ 0xBF`). -/
def isCont (b : Nat) : Bool := 0x80 ≤ b && b ≤ 0xBF

/-- Accepted range for the second byte of a multi-byte sequence,
as in Go's `unicode/utf8` accept tables. -/
def acceptSecond (b0 b1 : Nat) : Bool :=
  if b0 = 0xE0 then 0xA0 ≤ b1 && b1 ≤ 0xBF
  else if b0 = 0xED then 0x80 ≤ b1 && b1 ≤ 0x9F
  else if b0 = 0xF0 then 0x90 ≤ b1 && b1 ≤ 0xBF
  else if b0 = 0xF4 then 0x80 ≤ b1 && b1 ≤ 0x8F
  else isCont b1

/-- The size returned by Go's `utf8.DecodeRune` on the given bytes:
the length of a valid leading UTF-8 sequence, 1 for an invalid or
truncated sequence, 0 for the empty input. -/
def decodeRuneSize : List Nat → Nat
  | [] => 0
  | b0 :: rest =>
    if b0 < 0x80 then 1
    else if b0 < 0xC2 then 1
    else if b0 ≤ 0xDF then
      match rest with
      | b1 :: _ => if isCont b1 then 2 else 1
      | [] => 1
    else if b0 ≤ 0xEF then
      match rest with
      | b1 :: b2 :: _ => if acceptSecond b0 b1 && isCont b2 then 3 else 1
      | _ => 1
    else if b0 ≤ 0xF4 then
      match rest with
      | b1 :: b2 :: b3 :: _ =>
        if acceptSecond b0 b1 && isCont b2 && isCont b3 then 4 else 1
      | _ => 1
    else 1

/-- Error values produced by the evaluator (`errors.New`/`strconv` values
in the source). -/
inductive Err where
  /-- invalid address syntax near the given byte -/
  | invalidAddress (c : Nat)
  /-- `strconv.Atoi` failure on a digit run (out of `int` range) -/
  | parseError
  /-- address out of range -/
  | outOfRange
  /-- regular expression failed to compile -/
  | badPattern
  /-- no match for the pattern -/
  | noMatch
  /-- reverse search not implemented -/
  | reverseSearch
deriving DecidableEq, Repr

/-- Outcome of a Go function returning `(lo, hi int, err error)`.
`fault` models a runtime index-out-of-range abort, which in Go is a
panic, not a returned value. -/
inductive EvalResult where
  | ret (lo hi : Nat) (err : Option Err)
  | fault
deriving DecidableEq, Repr

/-! ## addrNumber: the numeric stepper

The source is `addrNumber(data, lo, hi, dir, n, charOffset)`; `dir` is a
byte: 0 (none), 43 (`+`), 45 (`-`).  Each of its four inner loops is
embedded as its own recursion below. -/

/-- Forward rune stepping: the loop
`for ; n > 0 && pos < len(data); n-- { _, size := utf8.DecodeRune(data[pos:]); pos += size }`.
Returns the final `(pos, n)`. -/
def fwdCharGo (data : List Nat) : Nat → Nat → Nat × Nat
  | pos, 0 => (pos, 0)
  | pos, n + 1 =>
    if pos < data.length then
      fwdCharGo data (pos + decodeRuneSize (data.drop pos)) n
    else (pos, n + 1)

/-- Forward line snap: the loop
`for hi < len(data) && data[hi-1] != '\n' { hi++ }`,
with fuel exactly `data.length - hi` so fuel exhaustion coincides with
the loop guard failing. -/
def fwdLineSnapGo (data : List Nat) : Nat → Nat → Nat
  | 0, hi => hi
  | fuel + 1, hi =>
    if hi < data.length && data.getD (hi - 1) 0 != 10 then
      fwdLineSnapGo data fuel (hi + 1)
    else hi

/-- Forward line scan: the loop
`for ; hi < len(data); hi++ { if data[hi] != '\n' { continue };
switch n--; n { case 1: lo = hi+1; case 0: return lo, hi+1, nil } }`,
with fuel exactly `data.length - hi`; `none` is the fallthrough to
"address out of range".  Only entered with `n ≥ 1`. -/
def fwdLineScanGo (data : List Nat) : Nat → Nat → Nat → Nat → Option (Nat × Nat)
  | 0, _, _, _ => none
  | fuel + 1, lo, hi, n =>
    if data.getD hi 0 != 10 then fwdLineScanGo data fuel lo (hi + 1) n
    else if n - 1 = 0 then some (lo, hi + 1)
    else fwdLineScanGo data fuel (if n - 1 = 1 then hi + 1 else lo) (hi + 1) (n - 1)

/-- Backward rune stepping: the loop
`for ; pos > 0 && n > 0; pos-- { if data[pos]&0xc0 != 0x80 { n-- } }`.
The source reads `data[pos]` guarded only by `pos > 0`, so a start
position `pos ≥ len(data)` is an out-of-bounds index: `none` here. -/
def backCharGo (data : List Nat) : Nat → Nat → Option (Nat × Nat)
  | 0, n => some (0, n)
  | pos + 1, n =>
    if 0 < n then
      if pos + 1 < data.length then
        backCharGo data pos
          (if (data.getD (pos + 1) 0) &&& 0xc0 != 0x80 then n - 1 else n)
      else none
    else some (pos + 1, n)

/-- Backward line snap: the loop
`for lo > 0 && data[lo-1] != '\n' { lo-- }`; `data[lo-1]` is read
whenever `lo > 0`, so `lo > len(data)` is an out-of-bounds index
(`none`). -/
def backLineSnapGo (data : List Nat) : Nat → Option Nat
  | 0 => some 0
  | lo + 1 =>
    if lo < data.length then
      if data.getD lo 0 != 10 then backLineSnapGo data lo else some (lo + 1)
    else none

/-- Result of the backward line scan loop. -/
inductive LoopRes where
  | ok (lo hi : Nat)
  | oor
  | fault
deriving DecidableEq, Repr

/-- Backward line scan: the loop
`for ; lo >= 0; lo-- { if lo > 0 && data[lo-1] != '\n' { continue };
switch n--; n { case 1: hi = lo; case 0: return lo, hi, nil } }`;
falling out of the loop (past `lo = 0`) is "address out of range".
Only entered with `n ≥ 1`. -/
def backLineScanGo (data : List Nat) : Nat → Nat → Nat → LoopRes
  | 0, hi, n => if n - 1 = 0 then .ok 0 hi else .oor
  | lo + 1, hi, n =>
    if lo < data.length then
      if data.getD lo 0 != 10 then backLineScanGo data lo hi n
      else if n - 1 = 0 then .ok (lo + 1) hi
      else backLineScanGo data lo (if n - 1 = 1 then lo + 1 else hi) (n - 1)
    else .fault

/-- `addrNumber(data, lo, hi, dir, n, charOffset)` from the source:
applies direction `dir` (0, `+` = 43, `-` = 45) with count `n` to the
range `(lo, hi)`; `dir = 0` resets the range to `(0,0)` and falls
through to the forward case.  Every failure path of the source reaches
`return 0, 0, errors.New("address out of range")`. -/
def addrNumber (data : List Nat) (lo hi : Nat) (dir : Nat) (n : Nat)
    (charOffset : Bool) : EvalResult :=
  if dir = 0 ∨ dir = 43 then
    let hi0 := if dir = 0 then 0 else hi
    if charOffset then
      let r := fwdCharGo data hi0 n
      if r.2 = 0 then .ret r.1 r.1 none else .ret 0 0 (some .outOfRange)
    else
      let hi1 := if 0 < hi0 then fwdLineSnapGo data (data.length - hi0) hi0 else hi0
      if n = 0 then .ret hi1 hi1 none
      else match fwdLineScanGo data (data.length - hi1) hi1 hi1 n with
        | some r => .ret r.1 r.2 none
        | none => .ret 0 0 (some .outOfRange)
  else if dir = 45 then
    if charOffset then
      match backCharGo data lo n with
      | none => .fault
      | some r =>
        if r.2 = 0 then .ret r.1 r.1 none else .ret 0 0 (some .outOfRange)
    else
      match backLineSnapGo data lo with
      | none => .fault
      | some lo1 =>
        if n = 0 then .ret lo1 lo1 none
        else
          match backLineScanGo data lo1 lo1 n with
          | .ok a b => .ret a b none
          | .oor => .ret 0 0 (some .outOfRange)
          | .fault => .fault
  else .ret 0 0 (some .outOfRange)

/-! ## addrRegexp: the regex stepper

The source calls Go's `regexp` package, which is external to this
repository, so its behaviour is modelled from the spec. -/

/-- Modelled from the spec: the source delegates pattern compilation to
the external `regexp.Compile` ("Compile pattern using standard
regular-expression syntax; a compile failure signals InvalidPattern").
We model the literal fragment: a pattern none of whose bytes is a regex
metacharacter compiles, and matches exactly its own byte sequence; a
pattern containing a metacharacter such as an unbalanced `(` — which
`regexp.Compile` rejects — does not compile in this model. -/
def reCompiles (pattern : List Nat) : Bool :=
  pattern.all fun b =>
    !(b ∈ [40, 41, 42, 43, 46, 63, 91, 92, 93, 94, 123, 124, 125, 36])

/-- The pattern occurs in `data` at byte offset `p` (literal match). -/
def OccursAt (pattern data : List Nat) (p : Nat) : Prop :=
  p + pattern.length ≤ data.length ∧ (data.drop p).take pattern.length = pattern

instance (pattern data : List Nat) (p : Nat) : Decidable (OccursAt pattern data p) :=
  inferInstanceAs (Decidable (_ ∧ _))

/-- Scanning loop behind `findIndex`: try offsets `p, p+1, ...` while
fuel lasts. -/
def findIdxGo (pattern data : List Nat) : Nat → Nat → Option Nat
  | 0, _ => none
  | fuel + 1, p =>
    if decide (OccursAt pattern data p) then some p
    else findIdxGo pattern data fuel (p + 1)

/-- Modelled from the spec: `FindIndex` of the external `regexp` package
("Search for the first match in `buffer[hi:]`"): the least offset at
which the (literal) pattern occurs.  No occurrence can start past
`data.length`, so fuel `data.length + 1` is exhaustive. -/
def findIndex (pattern data : List Nat) : Option Nat :=
  findIdxGo pattern data (data.length + 1) 0

/-- `addrRegexp(data, lo, hi, dir, pattern)` from the source: compile the
pattern (failure is returned first), reject `dir = '-'`, search
`data[hi:]`, and on failure wrap around to search all of `data` when
`hi > 0`. -/
def addrRegexp (data : List Nat) (lo hi : Nat) (dir : Nat)
    (pattern : List Nat) : EvalResult :=
  if !reCompiles pattern then .ret 0 0 (some .badPattern)
  else if dir = 45 then .ret 0 0 (some .reverseSearch)
  else
    match findIndex pattern (data.drop hi) with
    | some p => .ret (p + hi) (p + pattern.length + hi) none
    | none =>
      if 0 < hi then
        match findIndex pattern data with
        | some p => .ret p (p + pattern.length) none
        | none => .ret 0 0 (some .noMatch)
      else .ret 0 0 (some .noMatch)

/-! ## addrToByteRange: the address evaluator -/

/-- State of the evaluator's scan when the address string is exhausted:
either an early `return` already happened (`halt`, carrying the returned
triple or a fault), or the loop ended normally with the final mutable
state (`done`). -/
inductive ScanOut where
  | halt (r : EvalResult)
  | done (lo hi dir prevc : Nat) (charOffset : Bool)
deriving DecidableEq, Repr

/-- The epilogue of `addrToByteRange`:
`if err == nil && dir != 0 { lo, hi, err = addrNumber(data, lo, hi, dir, 1, charOffset) };
if err != nil { return 0, 0, err }; return lo, hi, nil`. -/
def finalizeScan (data : List Nat) : ScanOut → EvalResult
  | .halt r => r
  | .done lo hi dir _ charOffset =>
    if dir ≠ 0 then
      match addrNumber data lo hi dir 1 charOffset with
      | .fault => .fault
      | .ret _ _ (some e) => .ret 0 0 (some e)
      | .ret a b none => .ret a b none
    else .ret lo hi none

/-- Is the byte an ASCII decimal digit? -/
def isDigitByte (b : Nat) : Bool := 48 ≤ b && b ≤ 57

/-- `strconv.Atoi` on a run of digit bytes: fails (out of `int` range)
beyond `math.MaxInt64`. -/
def atoiDigits (ds : List Nat) : Option Nat :=
  let v := ds.foldl (fun a d => a * 10 + (d - 48)) 0
  if v ≤ 9223372036854775807 then some v else none

/-- The delimiter scan of the `/` case:
`for i = 1; i < len(addr); i++ { switch addr[i] { case '\\': i++;
case '/': j = i + 1; break Regexp } }`, returning `(i, j)` with `j = 0`
meaning "no closing slash found".  Fuel is at least the number of
iterations remaining. -/
def patScanGo (addr : List Nat) : Nat → Nat → Nat × Nat
  | 0, i => (i, 0)
  | fuel + 1, i =>
    if i < addr.length then
      if addr.getD i 0 = 92 then patScanGo addr fuel (i + 2)
      else if addr.getD i 0 = 47 then (i, i + 1)
      else patScanGo addr fuel (i + 1)
    else (i, 0)

/-- The main scan loop of `addrToByteRange`, carrying the mutable state
`(lo, hi, dir, prevc, charOffset)`.  Fuel is structural for the
recursion; every call site passes fuel at least the address length, and
each iteration consumes at least one byte, so the fuel-exhaustion branch
is unreachable from `addrToByteRange`.  The `,` case evaluates the rest
of the address as a fresh full evaluation starting at the current `hi`
and early-returns `(lo, itsHi, itsErr)`. -/
def addrLoopGo (data : List Nat) : Nat → List Nat → Nat → Nat → Nat → Nat → Bool → ScanOut
  | _, [], lo, hi, dir, prevc, charOffset => .done lo hi dir prevc charOffset
  | 0, _ :: _, _, _, _, _, _ => .halt .fault
  | fuel + 1, c :: rest, lo, hi, dir, prevc, charOffset =>
    if c = 44 then
      if rest = [] then .halt (.ret lo data.length none)
      else
        match finalizeScan data (addrLoopGo data fuel rest hi hi 0 0 false) with
        | .fault => .halt .fault
        | .ret _ hi2 e => .halt (.ret lo hi2 e)
    else if c = 43 ∨ c = 45 then
      if prevc = 43 ∨ prevc = 45 then
        match addrNumber data lo hi prevc 1 charOffset with
        | .fault => .halt .fault
        | .ret _ _ (some e) => .halt (.ret 0 0 (some e))
        | .ret a b none => addrLoopGo data fuel rest a b c c charOffset
      else addrLoopGo data fuel rest lo hi c c charOffset
    else if c = 36 then
      addrLoopGo data fuel rest data.length data.length
        (if rest = [] then dir else 43) 36 charOffset
    else if c = 35 then
      addrLoopGo data fuel rest lo hi dir 35 true
    else if isDigitByte c then
      let ds := (c :: rest).takeWhile isDigitByte
      match atoiDigits ds with
      | none => .halt (.ret 0 0 (some .parseError))
      | some n =>
        match addrNumber data lo hi dir n charOffset with
        | .fault => .halt .fault
        | .ret _ _ (some e) => .halt (.ret 0 0 (some e))
        | .ret a b none => addrLoopGo data fuel ((c :: rest).drop ds.length) a b 0 c false
    else if c = 47 then
      let ij := patScanGo (c :: rest) (c :: rest).length 1
      let j := if ij.2 = 0 then ij.1 else ij.2
      if (c :: rest).length < j then .halt .fault
      else
        let pat := ((c :: rest).drop 1).take (ij.1 - 1)
        match addrRegexp data lo hi dir pat with
        | .fault => .halt .fault
        | .ret _ _ (some e) => .halt (.ret 0 0 (some e))
        | .ret a b none => addrLoopGo data fuel ((c :: rest).drop j) a b dir 47 charOffset
    else .halt (.ret 0 0 (some (.invalidAddress c)))

/-- `addrToByteRange(addr, start, data)` from the source: evaluate the
address over `data` starting from the range `(start, start)`. -/
def addrToByteRange (addr : List Nat) (start : Nat) (data : List Nat) : EvalResult :=
  finalizeScan data (addrLoopGo data addr.length addr start start 0 0 false)

/-! ## Line/byte index conversions -/

/-- The loop of `lineToByte`:
`for i, c := range data { if c == '\n' { if n--; n == 0 { return i + 1 } } }; return len(data)`,
with `i` carried as the accumulated index. -/
def lineToByteGo : List Nat → Int → Nat → Nat
  | [], _, i => i
  | c :: rest, n, i =>
    if c = 10 then
      if n - 1 = 0 then i + 1 else lineToByteGo rest (n - 1) (i + 1)
    else lineToByteGo rest n (i + 1)

/-- `lineToByte(data, n)` from the source: byte index of the first byte
of line `n` (1-based); `n ≤ 1` maps to 0; past the last line clamps to
`len(data)`. -/
def lineToByte (data : List Nat) (n : Int) : Nat :=
  if n ≤ 1 then 0 else lineToByteGo data (n - 1) 0

/-- The loop of `byteToLine`:
`for j, c := range data { if j == i { return l }; if c == '\n' { l++ } }; return l`. -/
def byteToLineGo : List Nat → Int → Nat → Nat → Nat
  | [], _, _, l => l
  | c :: rest, i, j, l =>
    if (j : Int) = i then l
    else byteToLineGo rest i (j + 1) (if c = 10 then l + 1 else l)

/-- `byteToLine(data, i)` from the source: 1-based number of the line
containing byte index `i` (newlines strictly before `i`, plus one). -/
def byteToLine (data : List Nat) (i : Int) : Nat :=
  byteToLineGo data i 0 1

/-- Number of newline bytes in the buffer. -/
def countNL : List Nat → Nat
  | [] => 0
  | c :: rest => (if c = 10 then 1 else 0) + countNL rest

/-- Modelled from the spec: `lineCount(buffer)`, the number of lines of a
buffer, which the spec uses but the source never defines.  Both
conversions treat the (possibly empty) text after the last newline as a
final line, so `lineCount = countNL + 1`; this is the largest line count
for which the spec's round-trip law can be read, so proving the law for
it covers every smaller convention. -/
def lineCount (data : List Nat) : Nat := countNL data + 1

/-! ## Helper lemmas: out-of-bounds reads and rune sizes -/

theorem getD_of_length_le (l : List Nat) (i : Nat) (h : l.length ≤ i) :
    l.getD i 0 = 0 := by
  simp [List.getD_eq_getElem?_getD, List.getElem?_eq_none h]

theorem decodeRuneSize_le (bs : List Nat) : decodeRuneSize bs ≤ bs.length := by
  match bs with
  | [] => simp [decodeRuneSize]
  | [b0] =>
    simp only [decodeRuneSize, List.length_cons, List.length_nil]
    repeat' split
    all_goals omega
  | [b0, b1] =>
    simp only [decodeRuneSize, List.length_cons, List.length_nil]
    repeat' split
    all_goals omega
  | [b0, b1, b2] =>
    simp only [decodeRuneSize, List.length_cons, List.length_nil]
    repeat' split
    all_goals omega
  | b0 :: b1 :: b2 :: b3 :: rest =>
    simp only [decodeRuneSize, List.length_cons]
    repeat' split
    all_goals omega

theorem decodeRuneSize_pos (b0 : Nat) (rest : List Nat) :
    1 ≤ decodeRuneSize (b0 :: rest) := by
  match rest with
  | [] =>
    simp only [decodeRuneSize]
    repeat' split
    all_goals omega
  | [b1] =>
    simp only [decodeRuneSize]
    repeat' split
    all_goals omega
  | [b1, b2] =>
    simp only [decodeRuneSize]
    repeat' split
    all_goals omega
  | b1 :: b2 :: b3 :: rest =>
    simp only [decodeRuneSize]
    repeat' split
    all_goals omega

/-! ## Helper lemmas: bounds of the numeric stepper loops -/

theorem fwdCharGo_le (data : List Nat) (n : Nat) : ∀ pos, pos ≤ data.length →
    (fwdCharGo data pos n).1 ≤ data.length := by
  induction n with
  | zero => intro pos h; exact h
  | succ n ih =>
    intro pos h
    simp only [fwdCharGo]
    split
    · next hp =>
      apply ih
      have h1 := decodeRuneSize_le (data.drop pos)
      have h2 : (data.drop pos).length = data.length - pos := List.length_drop pos data
      omega
    · exact h

theorem fwdLineSnapGo_le (data : List Nat) (fuel : Nat) : ∀ hi, hi ≤ data.length →
    fwdLineSnapGo data fuel hi ≤ data.length := by
  induction fuel with
  | zero => intro hi h; exact h
  | succ fuel ih =>
    intro hi h
    simp only [fwdLineSnapGo]
    split
    · next hc =>
      simp only [Bool.and_eq_true, decide_eq_true_eq, bne_iff_ne] at hc
      exact ih (hi + 1) (by omega)
    · exact h

theorem fwdLineScanGo_some (data : List Nat) (fuel : Nat) : ∀ lo hi n a b,
    fwdLineScanGo data fuel lo hi n = some (a, b) →
    (lo ≤ data.length → a ≤ data.length) ∧
      1 ≤ b ∧ b ≤ data.length ∧ data.getD (b - 1) 0 = 10 := by
  induction fuel with
  | zero => intro lo hi n a b h; exact absurd h (by simp [fwdLineScanGo])
  | succ fuel ih =>
    intro lo hi n a b h
    simp only [fwdLineScanGo] at h
    split at h
    · exact ih _ _ _ _ _ h
    · next hnl =>
      have hnl' : data.getD hi 0 = 10 := by
        simpa [bne_iff_ne] using hnl
      have hlt : hi < data.length := by
        by_contra hge
        rw [getD_of_length_le data hi (by omega)] at hnl'
        omega
      split at h
      · cases h
        refine ⟨fun hl => hl, by omega, by omega, ?_⟩
        simpa using hnl'
      · have := ih _ _ _ _ _ h
        refine ⟨fun hl => this.1 ?_, this.2⟩
        split <;> omega

theorem backCharGo_le (data : List Nat) : ∀ pos n p n',
    backCharGo data pos n = some (p, n') → p ≤ pos := by
  intro pos
  induction pos with
  | zero => intro n p n' h; simp [backCharGo] at h; omega
  | succ pos ih =>
    intro n p n' h
    simp only [backCharGo] at h
    split at h
    · split at h
      · exact Nat.le_trans (ih _ _ _ h) (by omega)
      · exact absurd h (by simp)
    · simp at h; omega

theorem backLineSnapGo_le (data : List Nat) : ∀ lo l,
    backLineSnapGo data lo = some l → l ≤ lo := by
  intro lo
  induction lo with
  | zero => intro l h; simp [backLineSnapGo] at h; omega
  | succ lo ih =>
    intro l h
    simp only [backLineSnapGo] at h
    split at h
    · split at h
      · exact Nat.le_trans (ih _ h) (by omega)
      · simp at h; omega
    · exact absurd h (by simp)

theorem backLineScanGo_ok (data : List Nat) (L : Nat) : ∀ lo hi n a b,
    lo ≤ L → hi ≤ L → backLineScanGo data lo hi n = .ok a b →
    a ≤ L ∧ b ≤ L := by
  intro lo
  induction lo with
  | zero =>
    intro hi n a b hlo hhi h
    simp only [backLineScanGo] at h
    split at h
    · cases h; exact ⟨by omega, hhi⟩
    · exact absurd h (by simp)
  | succ lo ih =>
    intro hi n a b hlo hhi h
    simp only [backLineScanGo] at h
    split at h
    · split at h
      · exact ih _ _ _ _ (by omega) hhi h
      · split at h
        · cases h; exact ⟨hlo, hhi⟩
        · split at h <;> exact ih _ _ _ _ (by omega) (by omega) h
    · exact absurd h (by simp)

theorem snapped_le (data : List Nat) (hi0 : Nat) (h : hi0 ≤ data.length) :
    (if 0 < hi0 then fwdLineSnapGo data (data.length - hi0) hi0 else hi0) ≤
      data.length := by
  split
  · exact fwdLineSnapGo_le data _ _ h
  · exact h

theorem addrNumber_bounds (data : List Nat) (lo hi dir n : Nat) (co : Bool) (a b : Nat)
    (hlo : lo ≤ data.length) (hhi : hi ≤ data.length)
    (h : addrNumber data lo hi dir n co = .ret a b none) :
    a ≤ data.length ∧ b ≤ data.length := by
  have hhi0 : (if dir = 0 then 0 else hi) ≤ data.length := by split <;> omega
  simp only [addrNumber] at h
  by_cases hfwd : dir = 0 ∨ dir = 43
  · rw [if_pos hfwd] at h
    by_cases hco : co
    · -- rune mode
      rw [if_pos hco] at h
      by_cases hz : (fwdCharGo data (if dir = 0 then 0 else hi) n).2 = 0
      · rw [if_pos hz] at h
        cases h
        have := fwdCharGo_le data n _ hhi0
        exact ⟨this, this⟩
      · rw [if_neg hz] at h
        simp at h
    · -- line mode
      rw [if_neg hco] at h
      have hsT := snapped_le data (if dir = 0 then 0 else hi) hhi0
      generalize hT : (if 0 < (if dir = 0 then 0 else hi) then
          fwdLineSnapGo data (data.length - (if dir = 0 then 0 else hi))
            (if dir = 0 then 0 else hi)
          else (if dir = 0 then 0 else hi)) = T at h hsT
      by_cases hn : n = 0
      · rw [if_pos hn] at h
        cases h
        exact ⟨hsT, hsT⟩
      · rw [if_neg hn] at h
        rcases hscan : fwdLineScanGo data (data.length - T) T T n with _ | r
        · simp only [hscan] at h
          simp at h
        · simp only [hscan] at h
          cases h
          have hs := fwdLineScanGo_some data (data.length - T) T T n r.1 r.2
            (by rw [hscan])
          exact ⟨hs.1 hsT, hs.2.2.1⟩
  · rw [if_neg hfwd] at h
    by_cases hbk : dir = 45
    · rw [if_pos hbk] at h
      by_cases hco : co
      · -- backward rune mode
        rw [if_pos hco] at h
        rcases hbc : backCharGo data lo n with _ | r
        · simp only [hbc] at h
          simp at h
        · simp only [hbc] at h
          by_cases hz : r.2 = 0
          · rw [if_pos hz] at h
            cases h
            have := backCharGo_le data lo n r.1 r.2 (by rw [hbc])
            constructor <;> omega
          · rw [if_neg hz] at h
            simp at h
      · -- backward line mode
        rw [if_neg hco] at h
        rcases hbs : backLineSnapGo data lo with _ | lo1
        · simp only [hbs] at h
          simp at h
        · simp only [hbs] at h
          have hlo1 : lo1 ≤ data.length :=
            Nat.le_trans (backLineSnapGo_le data lo lo1 hbs) hlo
          by_cases hn : n = 0
          · rw [if_pos hn] at h
            cases h
            exact ⟨hlo1, hlo1⟩
          · rw [if_neg hn] at h
            rcases hbl : backLineScanGo data lo1 lo1 n with ⟨a2, b2⟩ | _ | _
            · simp only [hbl] at h
              cases h
              exact backLineScanGo_ok data data.length _ _ _ _ _ hlo1 hlo1 hbl
            · simp only [hbl] at h
              simp at h
            · simp only [hbl] at h
              simp at h
    · rw [if_neg hbk] at h
      simp at h

/-! ## Helper lemmas: literal pattern search -/

theorem occursAt_le (pattern data : List Nat) (p : Nat) (h : OccursAt pattern data p) :
    p + pattern.length ≤ data.length := h.1

theorem findIdxGo_some (pattern data : List Nat) (fuel : Nat) : ∀ p0 p,
    findIdxGo pattern data fuel p0 = some p →
    p0 ≤ p ∧ OccursAt pattern data p ∧
      ∀ q, p0 ≤ q → q < p → ¬ OccursAt pattern data q := by
  induction fuel with
  | zero => intro p0 p h; exact absurd h (by simp [findIdxGo])
  | succ fuel ih =>
    intro p0 p h
    simp only [findIdxGo] at h
    split at h
    · next hocc =>
      cases h
      exact ⟨Nat.le_refl _, of_decide_eq_true hocc, fun q h1 h2 => by omega⟩
    · next hocc =>
      have hno : ¬ OccursAt pattern data p0 := of_decide_eq_false (by simpa using hocc)
      have := ih _ _ h
      refine ⟨by omega, this.2.1, fun q h1 h2 hq => ?_⟩
      rcases Nat.eq_or_lt_of_le h1 with h1 | h1
      · exact hno (h1 ▸ hq)
      · exact this.2.2 q h1 h2 hq

theorem findIdxGo_none (pattern data : List Nat) (fuel : Nat) : ∀ p0,
    findIdxGo pattern data fuel p0 = none →
    ∀ q, p0 ≤ q → q < p0 + fuel → ¬ OccursAt pattern data q := by
  induction fuel with
  | zero => intro p0 _ q h1 h2; omega
  | succ fuel ih =>
    intro p0 h q h1 h2
    simp only [findIdxGo] at h
    split at h
    · exact absurd h (by simp)
    · next hocc =>
      have hno : ¬ OccursAt pattern data p0 := of_decide_eq_false (by simpa using hocc)
      intro hq
      rcases Nat.eq_or_lt_of_le h1 with h1 | h1
      · exact hno (h1 ▸ hq)
      · exact ih _ h q h1 (by omega) hq

theorem findIndex_some (pattern data : List Nat) (p : Nat)
    (h : findIndex pattern data = some p) :
    OccursAt pattern data p ∧ ∀ q, q < p → ¬ OccursAt pattern data q := by
  have := findIdxGo_some pattern data (data.length + 1) 0 p h
  exact ⟨this.2.1, fun q hq => this.2.2 q (Nat.zero_le q) hq⟩

theorem findIndex_none (pattern data : List Nat)
    (h : findIndex pattern data = none) : ∀ q, ¬ OccursAt pattern data q := by
  intro q hq
  have hle : q ≤ data.length := by have := hq.1; omega
  exact findIdxGo_none pattern data (data.length + 1) 0 h q (Nat.zero_le q)
    (by omega) hq

theorem findIndex_eq_some (pattern data : List Nat) (p : Nat)
    (hocc : OccursAt pattern data p)
    (hleast : ∀ q, q < p → ¬ OccursAt pattern data q) :
    findIndex pattern data = some p := by
  match hfi : findIndex pattern data with
  | none => exact absurd hocc (findIndex_none pattern data hfi p)
  | some p' =>
    have h' := findIndex_some pattern data p' hfi
    have h1 : ¬ p' < p := fun hc => hleast p' hc h'.1
    have h2 : ¬ p < p' := fun hc => h'.2 p hc hocc
    have : p = p' := by omega
    rw [this]

theorem addrRegexp_bounds (data : List Nat) (lo hi dir : Nat) (pattern : List Nat)
    (a b : Nat) (hhi : hi ≤ data.length)
    (h : addrRegexp data lo hi dir pattern = .ret a b none) :
    a ≤ data.length ∧ b ≤ data.length := by
  simp only [addrRegexp] at h
  by_cases hcmp : reCompiles pattern
  · rw [if_neg (by simp [hcmp])] at h
    by_cases hdir : dir = 45
    · rw [if_pos hdir] at h
      simp at h
    · rw [if_neg hdir] at h
      rcases hfi : findIndex pattern (data.drop hi) with _ | p
      · simp only [hfi] at h
        by_cases hpos : 0 < hi
        · rw [if_pos hpos] at h
          rcases hfi2 : findIndex pattern data with _ | p
          · simp only [hfi2] at h
            simp at h
          · simp only [hfi2] at h
            cases h
            have := (findIndex_some pattern data _ hfi2).1.1
            exact ⟨by omega, by omega⟩
        · rw [if_neg hpos] at h
          simp at h
      · simp only [hfi] at h
        cases h
        have := (findIndex_some pattern (data.drop hi) _ hfi).1.1
        rw [List.length_drop] at this
        exact ⟨by omega, by omega⟩
  · rw [if_pos (by simp [hcmp])] at h
    simp at h

/-! ## The scan invariant: ranges stay within the buffer -/

/-- Bound carried through the evaluator scan: a normally returned range,
or the running range of a still-live scan, has both components within
the buffer. -/
def ScanBounded (L : Nat) : ScanOut → Prop
  | .halt (.ret a b none) => a ≤ L ∧ b ≤ L
  | .halt (.ret _ _ (some _)) => True
  | .halt .fault => True
  | .done a b _ _ _ => a ≤ L ∧ b ≤ L

theorem finalizeScan_bounds (data : List Nat) (s : ScanOut) (a b : Nat)
    (hs : ScanBounded data.length s)
    (h : finalizeScan data s = .ret a b none) :
    a ≤ data.length ∧ b ≤ data.length := by
  match s with
  | .halt (.ret a2 b2 none) =>
    simp only [finalizeScan] at h
    cases h
    exact hs
  | .halt (.ret a2 b2 (some e)) =>
    simp only [finalizeScan] at h
    simp at h
  | .halt .fault =>
    simp only [finalizeScan] at h
    simp at h
  | .done lo hi dir p co =>
    simp only [finalizeScan] at h
    by_cases hd : dir = 0
    · rw [if_neg (by omega)] at h
      cases h
      exact hs
    · rw [if_pos hd] at h
      rcases han : addrNumber data lo hi dir 1 co with ⟨a2, b2, _ | e2⟩ | _
      · simp only [han] at h
        cases h
        exact addrNumber_bounds data lo hi dir 1 co a b hs.1 hs.2 han
      · simp only [han] at h
        simp at h
      · simp only [han] at h
        simp at h

theorem addrLoopGo_bounds (data : List Nat) : ∀ (fuel : Nat) (addr : List Nat)
    (lo hi dir prevc : Nat) (co : Bool), lo ≤ data.length → hi ≤ data.length →
    ScanBounded data.length (addrLoopGo data fuel addr lo hi dir prevc co) := by
  intro fuel
  induction fuel with
  | zero =>
    intro addr lo hi dir prevc co hlo hhi
    match addr with
    | [] => exact ⟨hlo, hhi⟩
    | c :: rest => trivial
  | succ fuel ih =>
    intro addr lo hi dir prevc co hlo hhi
    match addr with
    | [] => exact ⟨hlo, hhi⟩
    | c :: rest =>
      simp only [addrLoopGo]
      by_cases hc44 : c = 44
      · rw [if_pos hc44]
        by_cases hrest : rest = []
        · rw [if_pos hrest]
          exact ⟨hlo, Nat.le_refl _⟩
        · rw [if_neg hrest]
          have hinner := ih rest hi hi 0 0 false hhi hhi
          rcases hfin : finalizeScan data (addrLoopGo data fuel rest hi hi 0 0 false) with
            ⟨a2, b2, _ | e2⟩ | _
          · simp only [hfin]
            have := finalizeScan_bounds data _ a2 b2 hinner hfin
            exact ⟨hlo, this.2⟩
          · simp only [hfin]
            trivial
          · simp only [hfin]
            trivial
      · rw [if_neg hc44]
        by_cases hc43 : c = 43 ∨ c = 45
        · rw [if_pos hc43]
          by_cases hprev : prevc = 43 ∨ prevc = 45
          · rw [if_pos hprev]
            rcases han : addrNumber data lo hi prevc 1 co with ⟨a2, b2, _ | e2⟩ | _
            · simp only [han]
              have := addrNumber_bounds data lo hi prevc 1 co a2 b2 hlo hhi han
              exact ih rest a2 b2 c c co this.1 this.2
            · simp only [han]
              trivial
            · simp only [han]
              trivial
          · rw [if_neg hprev]
            exact ih rest lo hi c c co hlo hhi
        · rw [if_neg hc43]
          by_cases hc36 : c = 36
          · rw [if_pos hc36]
            exact ih rest data.length data.length _ 36 co (Nat.le_refl _) (Nat.le_refl _)
          · rw [if_neg hc36]
            by_cases hc35 : c = 35
            · rw [if_pos hc35]
              exact ih rest lo hi dir 35 true hlo hhi
            · rw [if_neg hc35]
              by_cases hdig : isDigitByte c
              · rw [if_pos hdig]
                rcases hat : atoiDigits ((c :: rest).takeWhile isDigitByte) with _ | n
                · simp only [hat]
                  trivial
                · simp only [hat]
                  rcases han : addrNumber data lo hi dir n co with ⟨a2, b2, _ | e2⟩ | _
                  · simp only [han]
                    have := addrNumber_bounds data lo hi dir n co a2 b2 hlo hhi han
                    exact ih _ a2 b2 0 c false this.1 this.2
                  · simp only [han]
                    trivial
                  · simp only [han]
                    trivial
              · rw [if_neg hdig]
                by_cases hc47 : c = 47
                · rw [if_pos hc47]
                  by_cases hj : (c :: rest).length <
                      (if (patScanGo (c :: rest) (c :: rest).length 1).2 = 0 then
                        (patScanGo (c :: rest) (c :: rest).length 1).1
                      else (patScanGo (c :: rest) (c :: rest).length 1).2)
                  · rw [if_pos hj]
                    trivial
                  · rw [if_neg hj]
                    rcases hre : addrRegexp data lo hi dir
                        (((c :: rest).drop 1).take
                          ((patScanGo (c :: rest) (c :: rest).length 1).1 - 1)) with
                      ⟨a2, b2, _ | e2⟩ | _
                    · simp only [hre]
                      have := addrRegexp_bounds data lo hi dir _ a2 b2 hhi hre
                      exact ih _ a2 b2 dir 47 co this.1 this.2
                    · simp only [hre]
                      trivial
                    · simp only [hre]
                      trivial
                · rw [if_neg hc47]
                  trivial

theorem addrToByteRange_bounds (addr data : List Nat) (start : Nat) (a b : Nat)
    (hstart : start ≤ data.length)
    (h : addrToByteRange addr start data = .ret a b none) :
    a ≤ data.length ∧ b ≤ data.length :=
  finalizeScan_bounds data _ a b
    (addrLoopGo_bounds data addr.length addr start start 0 0 false hstart hstart) h

/-! ## Rune stepping: boundaries and rune counts -/

/-- One decoder stride forward from byte position `p`. -/
def advancePos (data : List Nat) (p : Nat) : Nat :=
  p + decodeRuneSize (data.drop p)

/-- Iterated decoder strides. -/
def iterAdvance (data : List Nat) : Nat → Nat → Nat
  | 0, p => p
  | k + 1, p => iterAdvance data k (advancePos data p)

/-- The loop behind `runesFrom`; fuel `data.length - p` is exact because
each stride advances by at least one byte. -/
def runesFromGo (data : List Nat) : Nat → Nat → Nat
  | 0, _ => 0
  | fuel + 1, p =>
    if p < data.length then runesFromGo data fuel (advancePos data p) + 1 else 0

/-- Number of whole runes between position `p` and the buffer end,
counted by decoder strides. -/
def runesFrom (data : List Nat) (p : Nat) : Nat :=
  runesFromGo data (data.length - p) p

/-- A rune boundary: a position reachable from offset 0 by whole
decoder strides (0, the end of the first rune, the end of the second
rune, ...). -/
def IsBoundary (data : List Nat) (p : Nat) : Prop :=
  ∃ k, iterAdvance data k 0 = p

theorem decodeRuneSize_pos' (bs : List Nat) (h : bs ≠ []) :
    1 ≤ decodeRuneSize bs := by
  match bs with
  | [] => exact absurd rfl h
  | b :: rest => exact decodeRuneSize_pos b rest

theorem advancePos_lt (data : List Nat) (p : Nat) (h : p < data.length) :
    p < advancePos data p := by
  have hne : data.drop p ≠ [] := by
    intro hc
    have := congrArg List.length hc
    rw [List.length_drop] at this
    simp at this
    omega
  have := decodeRuneSize_pos' (data.drop p) hne
  simp only [advancePos]
  omega

theorem runesFromGo_oob (data : List Nat) (p : Nat) (h : data.length ≤ p) :
    ∀ g, runesFromGo data g p = 0 := by
  intro g
  match g with
  | 0 => rfl
  | g + 1 => simp only [runesFromGo, if_neg (by omega : ¬ p < data.length)]

theorem runesFromGo_fuel (data : List Nat) : ∀ f g p, data.length - p ≤ f →
    data.length - p ≤ g → runesFromGo data f p = runesFromGo data g p := by
  intro f
  induction f with
  | zero =>
    intro g p hf hg
    rw [runesFromGo_oob data p (by omega) 0, runesFromGo_oob data p (by omega) g]
  | succ f ihf =>
    intro g p hf hg
    by_cases hp : p < data.length
    · match g with
      | 0 => omega
      | g + 1 =>
        simp only [runesFromGo, if_pos hp]
        have hadv := advancePos_lt data p hp
        rw [ihf g (advancePos data p) (by omega) (by omega)]
    · rw [runesFromGo_oob data p (by omega) (f + 1),
        runesFromGo_oob data p (by omega) g]

theorem runesFrom_step (data : List Nat) (p : Nat) (hp : p < data.length) :
    runesFrom data p = runesFrom data (advancePos data p) + 1 := by
  have h1 : data.length - p = (data.length - p - 1) + 1 := by omega
  simp only [runesFrom]
  rw [h1]
  simp only [runesFromGo, if_pos hp]
  have hadv := advancePos_lt data p hp
  rw [runesFromGo_fuel data (data.length - p - 1)
    (data.length - advancePos data p) (advancePos data p) (by omega) (by omega)]

theorem runesFrom_oob (data : List Nat) (p : Nat) (hp : data.length ≤ p) :
    runesFrom data p = 0 := by
  simp only [runesFrom]
  exact runesFromGo_oob data p hp _

theorem fwdCharGo_spec (data : List Nat) : ∀ n pos,
    ((fwdCharGo data pos n).2 = 0 ↔ n ≤ runesFrom data pos) ∧
    (n ≤ runesFrom data pos →
      (fwdCharGo data pos n).1 = iterAdvance data n pos) := by
  intro n
  induction n with
  | zero =>
    intro pos
    exact ⟨by constructor <;> (intro; first | rfl | omega), fun _ => rfl⟩
  | succ n ih =>
    intro pos
    by_cases hp : pos < data.length
    · have hstep := runesFrom_step data pos hp
      have hred : fwdCharGo data pos (n + 1) =
          fwdCharGo data (advancePos data pos) n := by
        simp only [fwdCharGo, if_pos hp]
        rfl
      constructor
      · rw [hred, (ih (advancePos data pos)).1, hstep]
        omega
      · intro hn
        rw [hred, (ih (advancePos data pos)).2 (by omega)]
        rfl
    · have hz : runesFrom data pos = 0 := runesFrom_oob data pos (by omega)
      have hred : fwdCharGo data pos (n + 1) = (pos, n + 1) := by
        simp only [fwdCharGo, if_neg hp]
      constructor
      · rw [hred, hz]
        show n + 1 = 0 ↔ n + 1 ≤ 0
        omega
      · intro hn
        rw [hz] at hn
        exact absurd hn (by omega)

theorem iterAdvance_add (data : List Nat) : ∀ a b p,
    iterAdvance data (a + b) p = iterAdvance data b (iterAdvance data a p) := by
  intro a
  induction a with
  | zero => intro b p; rw [Nat.zero_add]; rfl
  | succ a ih =>
    intro b p
    have h1 : a + 1 + b = (a + b) + 1 := by omega
    rw [h1]
    show iterAdvance data (a + b) (advancePos data p) = _
    rw [ih b (advancePos data p)]
    rfl

theorem isBoundary_iterAdvance (data : List Nat) (p k : Nat)
    (h : IsBoundary data p) : IsBoundary data (iterAdvance data k p) := by
  obtain ⟨j, hj⟩ := h
  exact ⟨j + k, by rw [iterAdvance_add, hj]⟩

/-! ## Line/byte conversion lemmas -/

theorem lineToByteGo_shift (data : List Nat) : ∀ (n : Int) (i : Nat),
    lineToByteGo data n i = i + lineToByteGo data n 0 := by
  induction data with
  | nil => intro n i; simp [lineToByteGo]
  | cons c rest ih =>
    intro n i
    simp only [lineToByteGo]
    by_cases hc : c = 10
    · rw [if_pos hc, if_pos hc]
      by_cases hn : n - 1 = 0
      · rw [if_pos hn, if_pos hn]
      · rw [if_neg hn, if_neg hn, ih (n - 1) (i + 1), ih (n - 1) (0 + 1)]
        omega
    · rw [if_neg hc, if_neg hc, ih n (i + 1), ih n (0 + 1)]
      omega

theorem byteToLineGo_count (data : List Nat) : ∀ (i j l : Nat),
    i ≤ data.length →
    byteToLineGo data ((j + i : Nat) : Int) j l = l + countNL (data.take i) := by
  induction data with
  | nil =>
    intro i j l hi
    simp at hi
    subst hi
    simp [byteToLineGo, countNL]
  | cons c rest ih =>
    intro i j l hi
    match i with
    | 0 => simp [byteToLineGo, countNL]
    | i + 1 =>
      simp only [byteToLineGo]
      rw [if_neg (by omega : ¬ ((j : Int) = ((j + (i + 1) : Nat) : Int)))]
      have h1 : ((j + (i + 1) : Nat) : Int) = (((j + 1) + i : Nat) : Int) := by
        push_cast; omega
      rw [h1, ih i (j + 1) _ (by simpa using hi)]
      simp only [List.take_succ_cons, countNL]
      split <;> omega

theorem lineToByteGo_newline (data : List Nat) : ∀ m, 1 ≤ m → m ≤ countNL data →
    ∃ pos, lineToByteGo data (m : Int) 0 = pos + 1 ∧ pos + 1 ≤ data.length ∧
      data.getD pos 0 = 10 ∧ countNL (data.take (pos + 1)) = m := by
  induction data with
  | nil =>
    intro m h1 h2
    simp [countNL] at h2
    omega
  | cons c rest ih =>
    intro m h1 h2
    simp only [lineToByteGo]
    by_cases hc : c = 10
    · rw [if_pos hc]
      by_cases hm : m = 1
      · subst hm
        rw [if_pos (show ((1 : Nat) : Int) - 1 = 0 by norm_num)]
        refine ⟨0, rfl, by simp only [List.length_cons]; omega,
          by simp [List.getD_cons_zero, hc], ?_⟩
        rw [List.take_succ_cons, List.take_zero]
        simp only [countNL]
        rw [if_pos hc]
      · rw [if_neg (show ¬ ((m : Nat) : Int) - 1 = 0 by omega)]
        have hcnt : m - 1 ≤ countNL rest := by
          simp only [countNL] at h2
          rw [if_pos hc] at h2
          omega
        obtain ⟨pos, hpos, hlen, hnl, hcount⟩ := ih (m - 1) (by omega) hcnt
        have hcast : ((m : Nat) : Int) - 1 = ((m - 1 : Nat) : Int) := by
          omega
        rw [hcast, lineToByteGo_shift rest _ (0 + 1), hpos]
        refine ⟨pos + 1, by omega, by simp only [List.length_cons]; omega,
          by simpa [List.getD_cons_succ] using hnl, ?_⟩
        rw [List.take_succ_cons]
        simp only [countNL]
        rw [if_pos hc]
        omega
    · rw [if_neg hc]
      have hcnt : m ≤ countNL rest := by
        simp only [countNL] at h2
        rw [if_neg hc] at h2
        omega
      obtain ⟨pos, hpos, hlen, hnl, hcount⟩ := ih m h1 hcnt
      rw [lineToByteGo_shift rest _ (0 + 1), hpos]
      refine ⟨pos + 1, by omega, by simp only [List.length_cons]; omega,
        by simpa [List.getD_cons_succ] using hnl, ?_⟩
      rw [List.take_succ_cons]
      simp only [countNL]
      rw [if_neg hc]
      omega

theorem lineToByteGo_clamp (data : List Nat) : ∀ (n : Int) (i : Nat),
    (countNL data : Int) < n → lineToByteGo data n i = i + data.length := by
  induction data with
  | nil => intro n i h; simp [lineToByteGo]
  | cons c rest ih =>
    intro n i h
    simp only [lineToByteGo]
    simp only [countNL] at h
    by_cases hc : c = 10
    · rw [if_pos hc] at h
      push_cast at h
      rw [if_pos hc, if_neg (show ¬ (n - 1 = 0) by omega),
        ih (n - 1) (i + 1) (by omega)]
      simp only [List.length_cons]
      omega
    · rw [if_neg hc] at h
      push_cast at h
      rw [if_neg hc, ih n (i + 1) (by omega)]
      simp only [List.length_cons]
      omega

/-! ## Composition of the scan over a comma -/

theorem takeWhile_length_le (p : Nat → Bool) : ∀ l : List Nat,
    (l.takeWhile p).length ≤ l.length := by
  intro l
  induction l with
  | nil => simp
  | cons a l ih =>
    by_cases h : p a
    · rw [List.takeWhile_cons_of_pos h]
      simpa using ih
    · rw [List.takeWhile_cons_of_neg (by simp [h])]
      simp

theorem takeWhile_append_break (p : Nat → Bool) (y : Nat) (hy : p y = false) :
    ∀ (xs ys : List Nat), (xs ++ y :: ys).takeWhile p = xs.takeWhile p := by
  intro xs ys
  induction xs with
  | nil =>
    simp only [List.nil_append, List.takeWhile_nil]
    exact List.takeWhile_cons_of_neg (by simp [hy])
  | cons x xs ih =>
    by_cases hx : p x
    · rw [List.cons_append, List.takeWhile_cons_of_pos hx,
        List.takeWhile_cons_of_pos hx, ih]
    · rw [List.cons_append, List.takeWhile_cons_of_neg (by simp [hx]),
        List.takeWhile_cons_of_neg (by simp [hx])]

theorem patScanGo_fst_ge (addr : List Nat) : ∀ fuel i,
    i ≤ (patScanGo addr fuel i).1 := by
  intro fuel
  induction fuel with
  | zero => intro i; exact Nat.le_refl i
  | succ fuel ih =>
    intro i
    simp only [patScanGo]
    split
    · split
      · exact Nat.le_trans (by omega) (ih (i + 2))
      · split
        · exact Nat.le_refl i
        · exact Nat.le_trans (by omega) (ih (i + 1))
    · exact Nat.le_refl i

theorem patScanGo_snd (addr : List Nat) : ∀ fuel i,
    (patScanGo addr fuel i).2 = 0 ∨
      (patScanGo addr fuel i).2 = (patScanGo addr fuel i).1 + 1 := by
  intro fuel
  induction fuel with
  | zero => intro i; exact Or.inl rfl
  | succ fuel ih =>
    intro i
    simp only [patScanGo]
    split
    · split
      · exact ih (i + 2)
      · split
        · exact Or.inr rfl
        · exact ih (i + 1)
    · exact Or.inl rfl

theorem slashJump_pos (addr : List Nat) :
    1 ≤ (if (patScanGo addr addr.length 1).2 = 0 then
      (patScanGo addr addr.length 1).1 else (patScanGo addr addr.length 1).2) := by
  have h1 := patScanGo_fst_ge addr addr.length 1
  rcases patScanGo_snd addr addr.length 1 with h | h <;> split <;> omega

theorem addrLoopGo_fuel (data : List Nat) : ∀ f g addr (lo hi dir prevc : Nat)
    (co : Bool), addr.length ≤ f → addr.length ≤ g →
    addrLoopGo data f addr lo hi dir prevc co =
      addrLoopGo data g addr lo hi dir prevc co := by
  intro f
  induction f with
  | zero =>
    intro g addr lo hi dir prevc co hf hg
    match addr with
    | [] => cases g <;> rfl
    | c :: rest => simp at hf
  | succ f ihf =>
    intro g addr lo hi dir prevc co hf hg
    match addr, g with
    | [], g => cases g <;> rfl
    | c :: rest, 0 => simp at hg
    | c :: rest, g + 1 =>
      have hf' : rest.length ≤ f := by
        simp only [List.length_cons] at hf
        omega
      have hg' : rest.length ≤ g := by
        simp only [List.length_cons] at hg
        omega
      simp only [addrLoopGo]
      by_cases hc44 : c = 44
      · simp only [if_pos hc44]
        by_cases hrest : rest = []
        · simp only [if_pos hrest]
        · simp only [if_neg hrest]
          rw [ihf g rest hi hi 0 0 false hf' hg']
      · simp only [if_neg hc44]
        by_cases hc43 : c = 43 ∨ c = 45
        · simp only [if_pos hc43]
          by_cases hprev : prevc = 43 ∨ prevc = 45
          · simp only [if_pos hprev]
            rcases han : addrNumber data lo hi prevc 1 co with ⟨a2, b2, _ | e2⟩ | _ <;>
              simp only [han]
            exact ihf g rest a2 b2 c c co hf' hg'
          · simp only [if_neg hprev]
            exact ihf g rest lo hi c c co hf' hg'
        · simp only [if_neg hc43]
          by_cases hc36 : c = 36
          · simp only [if_pos hc36]
            exact ihf g rest data.length data.length _ 36 co hf' hg'
          · simp only [if_neg hc36]
            by_cases hc35 : c = 35
            · simp only [if_pos hc35]
              exact ihf g rest lo hi dir 35 true hf' hg'
            · simp only [if_neg hc35]
              by_cases hdig : isDigitByte c
              · simp only [if_pos hdig]
                have hds : 1 ≤ ((c :: rest).takeWhile isDigitByte).length := by
                  rw [List.takeWhile_cons_of_pos hdig]
                  simp
                rcases hat : atoiDigits ((c :: rest).takeWhile isDigitByte) with _ | n <;>
                  simp only [hat]
                rcases han : addrNumber data lo hi dir n co with ⟨a2, b2, _ | e2⟩ | _ <;>
                  simp only [han]
                exact ihf g _ a2 b2 0 c false
                  (by rw [List.length_drop]; simp only [List.length_cons]; omega)
                  (by rw [List.length_drop]; simp only [List.length_cons]; omega)
              · simp only [if_neg hdig]
                by_cases hc47 : c = 47
                · simp only [if_pos hc47]
                  by_cases hj : (c :: rest).length <
                      (if (patScanGo (c :: rest) (c :: rest).length 1).2 = 0 then
                        (patScanGo (c :: rest) (c :: rest).length 1).1
                      else (patScanGo (c :: rest) (c :: rest).length 1).2)
                  · simp only [if_pos hj]
                  · simp only [if_neg hj]
                    have hjp := slashJump_pos (c :: rest)
                    simp only [List.length_cons] at hj hjp
                    rcases hre : addrRegexp data lo hi dir
                        (((c :: rest).drop 1).take
                          ((patScanGo (c :: rest) (c :: rest).length 1).1 - 1)) with
                      ⟨a2, b2, _ | e2⟩ | _ <;> simp only [hre]
                    exact ihf g _ a2 b2 dir 47 co
                      (by rw [List.length_drop]; simp only [List.length_cons]; omega)
                      (by rw [List.length_drop]; simp only [List.length_cons]; omega)
                · simp only [if_neg hc47]

/-- Scanning `A ++ "," ++ B` first scans `A` exactly as scanning `A`
alone would (provided `A` contains no comma, no regex token, and no `$`,
which are the tokens whose handling looks past or at the token after
`A`), then hands the accumulated state to the comma. -/
theorem addrLoopGo_append (data : List Nat) : ∀ (k : Nat) (A : List Nat),
    A.length ≤ k → 44 ∉ A → 47 ∉ A → 36 ∉ A →
    ∀ (B : List Nat) (lo hi dir prevc : Nat) (co : Bool),
    addrLoopGo data (A ++ 44 :: B).length (A ++ 44 :: B) lo hi dir prevc co =
      (match addrLoopGo data A.length A lo hi dir prevc co with
       | .done a b d p c2 => addrLoopGo data (44 :: B).length (44 :: B) a b d p c2
       | .halt r => .halt r) := by
  intro k
  induction k with
  | zero =>
    intro A hA h44 h47 h36 B lo hi dir prevc co
    match A with
    | [] => rfl
    | c :: rest => simp at hA
  | succ k ih =>
    intro A hA h44 h47 h36 B lo hi dir prevc co
    match A with
    | [] => rfl
    | c :: rest =>
      have hA' : rest.length ≤ k := by
        simp only [List.length_cons] at hA
        omega
      have hc44 : ¬ c = 44 := by
        intro h
        subst h
        exact h44 (List.mem_cons_self 44 rest)
      have hc47 : ¬ c = 47 := by
        intro h
        subst h
        exact h47 (List.mem_cons_self 47 rest)
      have hc36 : ¬ c = 36 := by
        intro h
        subst h
        exact h36 (List.mem_cons_self 36 rest)
      have h44' : 44 ∉ rest := fun h => h44 (List.mem_cons_of_mem c h)
      have h47' : 47 ∉ rest := fun h => h47 (List.mem_cons_of_mem c h)
      have h36' : 36 ∉ rest := fun h => h36 (List.mem_cons_of_mem c h)
      simp only [List.cons_append, List.length_cons, addrLoopGo]
      simp only [List.append_eq]
      simp only [if_neg hc44, if_neg hc36]
      by_cases hc43 : c = 43 ∨ c = 45
      · simp only [if_pos hc43]
        by_cases hprev : prevc = 43 ∨ prevc = 45
        · simp only [if_pos hprev]
          rcases han : addrNumber data lo hi prevc 1 co with ⟨a2, b2, _ | e2⟩ | _ <;>
            simp only [han]
          exact ih rest hA' h44' h47' h36' B a2 b2 c c co
        · simp only [if_neg hprev]
          exact ih rest hA' h44' h47' h36' B lo hi c c co
      · simp only [if_neg hc43]
        by_cases hc35 : c = 35
        · simp only [if_pos hc35]
          exact ih rest hA' h44' h47' h36' B lo hi dir 35 true
        · simp only [if_neg hc35]
          by_cases hdig : isDigitByte c
          · simp only [if_pos hdig]
            have htw : (c :: (rest ++ 44 :: B)).takeWhile isDigitByte =
                (c :: rest).takeWhile isDigitByte := by
              have h0 := takeWhile_append_break isDigitByte 44 (by decide)
                (c :: rest) B
              simpa [List.cons_append] using h0
            rw [htw]
            rcases hat : atoiDigits ((c :: rest).takeWhile isDigitByte) with _ | n <;>
              simp only [hat]
            rcases han : addrNumber data lo hi dir n co with ⟨a2, b2, _ | e2⟩ | _ <;>
              simp only [han]
            have hk1 : 1 ≤ ((c :: rest).takeWhile isDigitByte).length := by
              rw [List.takeWhile_cons_of_pos hdig]
              simp
            have hk2 : ((c :: rest).takeWhile isDigitByte).length ≤
                (c :: rest).length := takeWhile_length_le isDigitByte (c :: rest)
            have hdrop : (c :: (rest ++ 44 :: B)).drop
                ((c :: rest).takeWhile isDigitByte).length =
                ((c :: rest).drop ((c :: rest).takeWhile isDigitByte).length) ++
                  44 :: B := by
              rw [show c :: (rest ++ 44 :: B) = (c :: rest) ++ 44 :: B from rfl]
              exact List.drop_append_of_le_length hk2
            rw [hdrop]
            have hlen1 : (((c :: rest).drop
                ((c :: rest).takeWhile isDigitByte).length) ++ 44 :: B).length ≤
                (rest ++ 44 :: B).length := by
              simp only [List.length_append, List.length_drop, List.length_cons]
              omega
            rw [addrLoopGo_fuel data (rest ++ 44 :: B).length
              (((c :: rest).drop ((c :: rest).takeWhile isDigitByte).length) ++
                44 :: B).length _ a2 b2 0 c false hlen1 (Nat.le_refl _)]
            rw [ih ((c :: rest).drop ((c :: rest).takeWhile isDigitByte).length)
              (by simp only [List.length_drop, List.length_cons]; omega)
              (fun h => h44 (List.drop_subset _ _ h))
              (fun h => h47 (List.drop_subset _ _ h))
              (fun h => h36 (List.drop_subset _ _ h)) B a2 b2 0 c false]
            rw [addrLoopGo_fuel data rest.length
              ((c :: rest).drop ((c :: rest).takeWhile isDigitByte).length).length
              _ a2 b2 0 c false
              (by simp only [List.length_drop, List.length_cons]; omega)
              (Nat.le_refl _)]
            rfl
          · simp only [if_neg hdig, if_neg hc47]

/-- One scan step on an address beginning with a comma. -/
theorem addrLoopGo_comma_step (data B : List Nat) (lo hi dir prevc : Nat) (co : Bool) :
    addrLoopGo data (44 :: B).length (44 :: B) lo hi dir prevc co =
      (if B = [] then .halt (.ret lo data.length none)
       else match finalizeScan data (addrLoopGo data B.length B hi hi 0 0 false) with
         | .fault => .halt .fault
         | .ret _ hi2 e => .halt (.ret lo hi2 e)) := by
  simp only [List.length_cons, addrLoopGo]
  norm_num

theorem addrToByteRange_comma (data A B : List Nat) (s la ha p : Nat) (co : Bool)
    (h44 : 44 ∉ A) (h47 : 47 ∉ A) (h36 : 36 ∉ A)
    (hscan : addrLoopGo data A.length A s s 0 0 false = .done la ha 0 p co) :
    addrToByteRange A s data = .ret la ha none ∧
    (B ≠ [] → addrToByteRange (A ++ 44 :: B) s data =
      (match addrToByteRange B ha data with
       | .ret _ hb e => .ret la hb e
       | .fault => .fault)) ∧
    addrToByteRange (A ++ [44]) s data = .ret la data.length none := by
  refine ⟨?_, ?_, ?_⟩
  · simp only [addrToByteRange, hscan, finalizeScan]
    rw [if_neg (by omega : ¬ ((0 : Nat) ≠ 0))]
  · intro hB
    simp only [addrToByteRange]
    rw [addrLoopGo_append data A.length A (Nat.le_refl _) h44 h47 h36 B s s 0 0 false,
      hscan]
    show finalizeScan data (addrLoopGo data (44 :: B).length (44 :: B) la ha 0 p co) = _
    rw [addrLoopGo_comma_step, if_neg hB]
    have hdef : finalizeScan data (addrLoopGo data B.length B ha ha 0 0 false) =
        addrToByteRange B ha data := rfl
    rw [hdef]
    rcases hX : addrToByteRange B ha data with ⟨lo2, hb, e⟩ | _ <;> simp only [hX] <;>
      rfl
  · simp only [addrToByteRange]
    rw [addrLoopGo_append data A.length A (Nat.le_refl _) h44 h47 h36 [] s s 0 0 false,
      hscan]
    show finalizeScan data (addrLoopGo data (44 :: ([] : List Nat)).length
      (44 :: ([] : List Nat)) la ha 0 p co) = _
    rw [addrLoopGo_comma_step, if_pos rfl]
    rfl

/-! ## Claim theorems -/

/-- Claim C1: the claim says address resolution never aborts uncatchably,
and in particular that a backward rune-mode step from lo = len(buffer)
(as produced by `$`) returns a value.  The code disagrees: the backward
rune scan reads `data[pos]` guarded only by `pos > 0`, so from
lo = len(buffer) it indexes one past the end — a runtime panic (`fault`),
not a returned value.  Here both the full evaluation of address "$-#1"
on buffer "a" and the bare backward rune step from (1,1) fault. -/
theorem claim_c1_backward_rune_fault :
    addrToByteRange (strBytes "$-#1") 0 (strBytes "a") = .fault ∧
    addrNumber (strBytes "a") 1 1 45 1 true = .fault := by
  decide

/-- Claim C2 (counterexample): the address "3,1" on buffer
"line1\nline2\nline3\n" evaluates without error to (lo, hi) = (12, 6),
violating the claimed invariant lo ≤ hi: the right sub-address of the
comma resolved earlier in the buffer than the left one. -/
theorem claim_c2_counterexample :
    addrToByteRange (strBytes "3,1") 0 (strBytes "line1\nline2\nline3\n") =
      .ret 12 6 none ∧ ¬ (12 : Nat) ≤ 6 := by
  decide

/-- Claim C2 (amended): for every buffer, initial position within the
buffer, and address expression on which evaluation succeeds, the
returned range satisfies lo ≤ len(buffer) and hi ≤ len(buffer); the
middle inequality lo ≤ hi of the original claim can fail for comma
expressions (see the counterexample). -/
theorem claim_c2_range_within_buffer (addr data : List Nat) (start a b : Nat)
    (hstart : start ≤ data.length)
    (h : addrToByteRange addr start data = .ret a b none) :
    a ≤ data.length ∧ b ≤ data.length :=
  addrToByteRange_bounds addr data start a b hstart h

/-- Claim C2 (witness): the amended bound at the concrete input "3,1". -/
theorem claim_c2_witness :
    12 ≤ (strBytes "line1\nline2\nline3\n").length ∧
    6 ≤ (strBytes "line1\nline2\nline3\n").length :=
  claim_c2_range_within_buffer (strBytes "3,1") (strBytes "line1\nline2\nline3\n")
    0 12 6 (by decide) (by decide)

/-- Claim C3 (counterexample): the claim predicts that in "A,B" the left
side A is resolved as one complete sub-address, so for A = "2+" the lo
of "2+,3" should be (resolve "2+").lo = 12; the code instead discards
the direction pending at the comma and returns lo = 6. -/
theorem claim_c3_counterexample :
    addrToByteRange (strBytes "2+,3") 0 (strBytes "line1\nline2\nline3\n") =
      .ret 6 18 none ∧
    addrToByteRange (strBytes "2+") 0 (strBytes "line1\nline2\nline3\n") =
      .ret 12 18 none ∧
    (6 : Nat) ≠ 12 := by
  decide

/-- Claim C3 (amended): for "A,B" where A contains no comma, no regex
token and no `$`, and scanning A leaves no direction pending, evaluation
resolves A from the initial position (yielding exactly the result of
resolving A alone), then resolves B starting from A's hi, and returns
(A.lo, B.hi); if nothing follows the comma the result is
(A.lo, len(buffer)).  A direction left pending at the comma is discarded
rather than finalized (see the counterexample).  Concretely, on buffer
"line1\nline2\nline3\n", "1,2" resolves to [0,12) and "0,$" to [0,18). -/
theorem claim_c3_comma_semantics :
    (∀ (data A B : List Nat) (s la ha p : Nat) (co : Bool),
      44 ∉ A → 47 ∉ A → 36 ∉ A →
      addrLoopGo data A.length A s s 0 0 false = .done la ha 0 p co →
      addrToByteRange A s data = .ret la ha none ∧
      (B ≠ [] → addrToByteRange (A ++ 44 :: B) s data =
        (match addrToByteRange B ha data with
         | .ret _ hb e => .ret la hb e
         | .fault => .fault)) ∧
      addrToByteRange (A ++ [44]) s data = .ret la data.length none) ∧
    addrToByteRange (strBytes "1,2") 0 (strBytes "line1\nline2\nline3\n") =
      .ret 0 12 none ∧
    addrToByteRange (strBytes "0,$") 0 (strBytes "line1\nline2\nline3\n") =
      .ret 0 18 none := by
  refine ⟨?_, by decide, by decide⟩
  intro data A B s la ha p co h44 h47 h36 hscan
  exact addrToByteRange_comma data A B s la ha p co h44 h47 h36 hscan

/-- Claim C3 (witness): the compositional statement instantiated at
A = "1", B = "2" on the spec's example buffer. -/
theorem claim_c3_witness :
    addrToByteRange (strBytes "1") 0 (strBytes "line1\nline2\nline3\n") =
      .ret 0 6 none ∧
    addrToByteRange (strBytes "1" ++ 44 :: strBytes "2") 0
        (strBytes "line1\nline2\nline3\n") =
      (match addrToByteRange (strBytes "2") 6 (strBytes "line1\nline2\nline3\n") with
       | .ret _ hb e => .ret 0 hb e
       | .fault => .fault) := by
  have h := claim_c3_comma_semantics.1 (strBytes "line1\nline2\nline3\n")
    (strBytes "1") (strBytes "2") 0 0 6 49 false (by decide) (by decide) (by decide)
    (by decide)
  exact ⟨h.1, h.2.1 (by decide)⟩

/-- Claim C4 (counterexample): a forward line-mode step with count 1 from
(0,0) on the unterminated buffer "a" does not succeed with hi at buffer
end as the claim says; it signals AddressOutOfRange. -/
theorem claim_c4_counterexample :
    addrNumber (strBytes "a") 0 0 43 1 false = .ret 0 0 (some .outOfRange) := by
  decide

/-- Claim C4 (amended): for every buffer, starting range and count
n ≥ 1, a forward line-mode numeric step either signals AddressOutOfRange
(in particular whenever the selection would end in an unterminated final
line) or succeeds with hi positioned just past a newline byte — never at
an unterminated buffer end. -/
theorem claim_c4_forward_line (data : List Nat) (lo hi n : Nat) (hn : 1 ≤ n) :
    addrNumber data lo hi 43 n false = .ret 0 0 (some .outOfRange) ∨
    ∃ a b, addrNumber data lo hi 43 n false = .ret a b none ∧
      1 ≤ b ∧ data.getD (b - 1) 0 = 10 := by
  have hn0 : ¬ n = 0 := by omega
  simp only [addrNumber]
  rw [if_pos (Or.inr trivial : (43 : Nat) = 0 ∨ True),
    if_neg Bool.false_ne_true, if_neg (by omega : ¬ (43 : Nat) = 0), if_neg hn0]
  generalize (if 0 < hi then fwdLineSnapGo data (data.length - hi) hi else hi) = T
  rcases hscan : fwdLineScanGo data (data.length - T) T T n with _ | r
  · left
    rfl
  · right
    have hs := fwdLineScanGo_some data (data.length - T) T T n r.1 r.2
      (by rw [hscan])
    exact ⟨r.1, r.2, rfl, hs.2.1, hs.2.2.2⟩

/-- Claim C4 (witness): the amended statement at buffer "a\n", count 1. -/
theorem claim_c4_witness :
    addrNumber (strBytes "a\n") 0 0 43 1 false = .ret 0 0 (some .outOfRange) ∨
    ∃ a b, addrNumber (strBytes "a\n") 0 0 43 1 false = .ret a b none ∧
      1 ≤ b ∧ (strBytes "a\n").getD (b - 1) 0 = 10 :=
  claim_c4_forward_line (strBytes "a\n") 0 0 1 (by decide)

/-- Claim C5 (counterexample): for a pattern that fails to compile (an
unbalanced "(", rejected by the regex engine), a backward search returns
the compile error, not UnsupportedDirection: the source compiles the
pattern before checking the direction. -/
theorem claim_c5_counterexample :
    addrRegexp (strBytes "ab") 0 0 45 (strBytes "(") =
      .ret 0 0 (some .badPattern) ∧
    addrRegexp (strBytes "ab") 0 0 45 (strBytes "(") ≠
      .ret 0 0 (some .reverseSearch) := by
  decide

/-- Claim C5 (amended): for every buffer, every range, and every pattern
that compiles, a regular-expression search with direction backward
signals UnsupportedDirection, independent of buffer content; a pattern
that fails to compile signals InvalidPattern first (see the
counterexample). -/
theorem claim_c5_backward_regexp (data : List Nat) (lo hi : Nat)
    (pattern : List Nat) (hc : reCompiles pattern = true) :
    addrRegexp data lo hi 45 pattern = .ret 0 0 (some .reverseSearch) := by
  simp only [addrRegexp]
  rw [if_neg (by simp [hc]), if_pos (trivial : True)]

/-- Claim C5 (witness): backward search of a compiling pattern on a
buffer that does contain a match still signals UnsupportedDirection. -/
theorem claim_c5_witness :
    addrRegexp (strBytes "xabcx") 2 2 45 (strBytes "abc") =
      .ret 0 0 (some .reverseSearch) :=
  claim_c5_backward_regexp (strBytes "xabcx") 2 2 (strBytes "abc") (by decide)

/-- Claim C6: forward regex search returns the absolute offsets of the
first (leftmost) match in buffer[hi:]; if no match exists there and
hi > 0, it searches the whole buffer from offset 0 and returns that
(leftmost) match; only when both passes find nothing does it signal
NoMatch.  Concretely, on buffer "abcXabc", searching "abc" from hi = 4
yields [4,7) without wrapping, and from hi = 7 it wraps and yields
[0,3). -/
theorem claim_c6_regexp_wraparound :
    (∀ (data : List Nat) (lo hi : Nat) (pattern : List Nat),
      reCompiles pattern = true →
      (∀ p, OccursAt pattern (data.drop hi) p →
        (∀ q, q < p → ¬ OccursAt pattern (data.drop hi) q) →
        addrRegexp data lo hi 43 pattern =
          .ret (p + hi) (p + pattern.length + hi) none) ∧
      ((∀ q, ¬ OccursAt pattern (data.drop hi) q) → 0 < hi →
        ∀ p, OccursAt pattern data p →
        (∀ q, q < p → ¬ OccursAt pattern data q) →
        addrRegexp data lo hi 43 pattern = .ret p (p + pattern.length) none) ∧
      ((∀ q, ¬ OccursAt pattern (data.drop hi) q) →
        (hi = 0 ∨ ∀ q, ¬ OccursAt pattern data q) →
        addrRegexp data lo hi 43 pattern = .ret 0 0 (some .noMatch))) ∧
    addrRegexp (strBytes "abcXabc") 4 4 43 (strBytes "abc") = .ret 4 7 none ∧
    addrRegexp (strBytes "abcXabc") 7 7 43 (strBytes "abc") = .ret 0 3 none := by
  refine ⟨?_, by decide, by decide⟩
  intro data lo hi pattern hc
  have hcmp : ¬ (!reCompiles pattern) = true := by simp [hc]
  have h45 : ¬ (43 : Nat) = 45 := by omega
  refine ⟨?_, ?_, ?_⟩
  · intro p hocc hleast
    simp only [addrRegexp]
    rw [if_neg hcmp, if_neg h45]
    simp only [findIndex_eq_some pattern (data.drop hi) p hocc hleast]
  · intro hnone hpos p hocc hleast
    have hfi : findIndex pattern (data.drop hi) = none := by
      rcases hX : findIndex pattern (data.drop hi) with _ | q
      · rfl
      · exact absurd (findIndex_some pattern (data.drop hi) q hX).1 (hnone q)
    simp only [addrRegexp]
    rw [if_neg hcmp, if_neg h45]
    simp only [hfi]
    rw [if_pos hpos]
    simp only [findIndex_eq_some pattern data p hocc hleast]
  · intro hnone hcase
    have hfi : findIndex pattern (data.drop hi) = none := by
      rcases hX : findIndex pattern (data.drop hi) with _ | q
      · rfl
      · exact absurd (findIndex_some pattern (data.drop hi) q hX).1 (hnone q)
    simp only [addrRegexp]
    rw [if_neg hcmp, if_neg h45]
    simp only [hfi]
    rcases hcase with h0 | hall
    · subst h0
      rw [if_neg (by omega : ¬ (0 : Nat) < 0)]
    · by_cases h0 : 0 < hi
      · rw [if_pos h0]
        have hfi2 : findIndex pattern data = none := by
          rcases hX : findIndex pattern data with _ | q
          · rfl
          · exact absurd (findIndex_some pattern data q hX).1 (hall q)
        simp only [hfi2]
      · rw [if_neg h0]

/-- Claim C6 (witness): the general statement instantiated on
"abcXabc": the non-wrapping search from hi = 4 and the wrapping search
from hi = 7 (with an arbitrary lo = 9, showing lo-independence). -/
theorem claim_c6_witness :
    addrRegexp (strBytes "abcXabc") 9 4 43 (strBytes "abc") =
      .ret (0 + 4) (0 + (strBytes "abc").length + 4) none ∧
    addrRegexp (strBytes "abcXabc") 9 7 43 (strBytes "abc") =
      .ret 0 (0 + (strBytes "abc").length) none := by
  constructor
  · exact (claim_c6_regexp_wraparound.1 (strBytes "abcXabc") 9 4 (strBytes "abc")
      (by decide)).1 0 (by decide) (fun q hq => absurd hq (Nat.not_lt_zero q))
  · refine (claim_c6_regexp_wraparound.1 (strBytes "abcXabc") 9 7 (strBytes "abc")
      (by decide)).2.1 ?_ (by decide) 0 (by decide)
      (fun q hq => absurd hq (Nat.not_lt_zero q))
    intro q hq
    have h1 := hq.1
    have hlen : ((strBytes "abcXabc").drop 7).length = 0 := by decide
    have hplen : (strBytes "abc").length = 3 := by decide
    omega

/-- Claim C7: a forward rune-mode step decodes up to n whole runes from
hi: it signals AddressOutOfRange exactly when fewer than n runes remain
before buffer end, and on success returns the zero-width range
(pos, pos) where pos is hi advanced by n decoder strides — hence on a
rune boundary whenever hi was one.  Concretely, "+#1" from offset 0 on
a buffer starting with the 3-byte character "€" lands exactly at
offset 3, after the whole character. -/
theorem claim_c7_forward_rune :
    (∀ (data : List Nat) (lo hi n : Nat),
      (runesFrom data hi < n →
        addrNumber data lo hi 43 n true = .ret 0 0 (some .outOfRange)) ∧
      (n ≤ runesFrom data hi →
        addrNumber data lo hi 43 n true =
          .ret (iterAdvance data n hi) (iterAdvance data n hi) none) ∧
      (IsBoundary data hi → IsBoundary data (iterAdvance data n hi))) ∧
    addrToByteRange (strBytes "+#1") 0 (strBytes "€abc") = .ret 3 3 none := by
  refine ⟨?_, by decide⟩
  intro data lo hi n
  have hred : addrNumber data lo hi 43 n true =
      (if (fwdCharGo data hi n).2 = 0 then
        .ret (fwdCharGo data hi n).1 (fwdCharGo data hi n).1 none
      else .ret 0 0 (some .outOfRange)) := by
    simp only [addrNumber]
    rw [if_pos (Or.inr trivial : (43 : Nat) = 0 ∨ True),
      if_pos (trivial : True), if_neg (by omega : ¬ (43 : Nat) = 0)]
  refine ⟨?_, ?_, fun hb => isBoundary_iterAdvance data hi n hb⟩
  · intro hlt
    rw [hred, if_neg (by rw [(fwdCharGo_spec data n hi).1]; omega)]
  · intro hle
    rw [hred, if_pos ((fwdCharGo_spec data n hi).1.mpr hle),
      (fwdCharGo_spec data n hi).2 hle]

/-- Claim C7 (witness): on "€abc" (6 bytes, 4 runes), stepping 2 runes
from offset 0 succeeds at a boundary, and stepping 9 runes signals
AddressOutOfRange. -/
theorem claim_c7_witness :
    addrNumber (strBytes "€abc") 0 0 43 2 true =
      .ret (iterAdvance (strBytes "€abc") 2 0)
        (iterAdvance (strBytes "€abc") 2 0) none ∧
    addrNumber (strBytes "€abc") 0 0 43 9 true = .ret 0 0 (some .outOfRange) ∧
    IsBoundary (strBytes "€abc") (iterAdvance (strBytes "€abc") 2 0) := by
  have h := claim_c7_forward_rune.1 (strBytes "€abc") 0 0 2
  have h9 := claim_c7_forward_rune.1 (strBytes "€abc") 0 0 9
  exact ⟨h.2.1 (by decide), h9.1 (by decide), h.2.2 ⟨0, rfl⟩⟩

/-- Claim C8: for every buffer and every line number L in
[1, lineCount(buffer)], byteToLine(buffer, lineToByte(buffer, L)) = L:
the conversions are inverses for in-range inputs. -/
theorem claim_c8_roundtrip (data : List Nat) (L : Nat) (h1 : 1 ≤ L)
    (h2 : L ≤ lineCount data) :
    byteToLine data ((lineToByte data (L : Int) : Nat) : Int) = L := by
  by_cases hL : L = 1
  · subst hL
    have hlb : lineToByte data ((1 : Nat) : Int) = 0 := by
      simp [lineToByte]
    rw [hlb]
    have hcnt := byteToLineGo_count data 0 0 1 (Nat.zero_le _)
    simpa [byteToLine, countNL] using hcnt
  · have hL2 : 2 ≤ L := by omega
    have hlb : lineToByte data (L : Int) = lineToByteGo data ((L : Int) - 1) 0 := by
      simp only [lineToByte]
      rw [if_neg (by omega)]
    have hcast : ((L : Nat) : Int) - 1 = ((L - 1 : Nat) : Int) := by
      omega
    obtain ⟨pos, hpos, hlen, hnl, hcount⟩ :=
      lineToByteGo_newline data (L - 1) (by omega)
        (by simp only [lineCount] at h2; omega)
    rw [hlb, hcast, hpos]
    have hcnt := byteToLineGo_count data (pos + 1) 0 1 hlen
    simp only [Nat.zero_add] at hcnt
    simp only [byteToLine]
    rw [hcnt, hcount]
    omega

/-- Claim C8 (witness): the round trip at line 3 of "a\nbb\nccc". -/
theorem claim_c8_witness :
    byteToLine (strBytes "a\nbb\nccc")
      ((lineToByte (strBytes "a\nbb\nccc") ((3 : Nat) : Int) : Nat) : Int) = 3 :=
  claim_c8_roundtrip (strBytes "a\nbb\nccc") 3 (by decide) (by decide)

/-- Claim C9: lineToByte maps every lineNumber ≤ 1 to offset 0; for an
in-range lineNumber ≥ 2 it returns the byte offset immediately following
the (lineNumber-1)-th newline (the returned offset is pos + 1 for a
newline byte at pos preceded by exactly lineNumber-2 earlier newlines);
and any lineNumber beyond the buffer's line count is clamped to
len(buffer) rather than erroring — in particular
lineToByte(buffer, lineCount(buffer) + 5) = len(buffer). -/
theorem claim_c9_lineToByte (data : List Nat) :
    (∀ n : Int, n ≤ 1 → lineToByte data n = 0) ∧
    (∀ L : Nat, 2 ≤ L → L ≤ lineCount data →
      ∃ pos, lineToByte data (L : Int) = pos + 1 ∧ data.getD pos 0 = 10 ∧
        countNL (data.take (pos + 1)) = L - 1) ∧
    (∀ n : Int, (lineCount data : Int) < n → lineToByte data n = data.length) ∧
    lineToByte data ((lineCount data : Int) + 5) = data.length := by
  have hone : ∀ n : Int, n ≤ 1 → lineToByte data n = 0 := by
    intro n hn
    simp only [lineToByte]
    rw [if_pos hn]
  have hclamp : ∀ n : Int, (lineCount data : Int) < n →
      lineToByte data n = data.length := by
    intro n hn
    have hcnt : (countNL data : Int) < n - 1 := by
      simp only [lineCount] at hn
      push_cast at hn
      omega
    simp only [lineToByte]
    rw [if_neg (by simp only [lineCount] at hn; push_cast at hn; omega),
      lineToByteGo_clamp data (n - 1) 0 hcnt]
    omega
  refine ⟨hone, ?_, hclamp, hclamp _ (by omega)⟩
  intro L h2 hc
  have hlb : lineToByte data (L : Int) = lineToByteGo data ((L : Int) - 1) 0 := by
    simp only [lineToByte]
    rw [if_neg (by omega)]
  have hcast : ((L : Nat) : Int) - 1 = ((L - 1 : Nat) : Int) := by
    omega
  obtain ⟨pos, hpos, hlen, hnl, hcount⟩ :=
    lineToByteGo_newline data (L - 1) (by omega)
      (by simp only [lineCount] at hc; omega)
  exact ⟨pos, by rw [hlb, hcast, hpos], hnl, hcount⟩

/-- Claim C9 (witness): the three behaviours at the buffer "a\nbb\nccc"
(2 newlines, lineCount 3). -/
theorem claim_c9_witness :
    lineToByte (strBytes "a\nbb\nccc") 0 = 0 ∧
    (∃ pos, lineToByte (strBytes "a\nbb\nccc") ((2 : Nat) : Int) = pos + 1 ∧
      (strBytes "a\nbb\nccc").getD pos 0 = 10 ∧
      countNL ((strBytes "a\nbb\nccc").take (pos + 1)) = 2 - 1) ∧
    lineToByte (strBytes "a\nbb\nccc")
      ((lineCount (strBytes "a\nbb\nccc") : Int) + 5) =
      (strBytes "a\nbb\nccc").length := by
  have h := claim_c9_lineToByte (strBytes "a\nbb\nccc")
  exact ⟨h.1 0 (by omega), h.2.1 2 (by omega) (by decide), h.2.2.2⟩

/-- Claim C10: evaluating the empty address expression succeeds: for
every buffer and every start offset s within the buffer, resolving ""
from the initial range (s, s) returns (s, s) unchanged, with no error. -/
theorem claim_c10_empty_address (data : List Nat) (s : Nat)
    (_hs : s ≤ data.length) :
    addrToByteRange [] s data = .ret s s none := rfl

/-- Claim C10 (witness): the empty address at start offset 1 of "ab". -/
theorem claim_c10_witness :
    addrToByteRange [] 1 (strBytes "ab") = .ret 1 1 none :=
  claim_c10_empty_address (strBytes "ab") 1 (by decide)

end Codewalk
